import Mathlib

/-!
Verification of the record-normalization and merge engine of the repository
(`app/utils/merge.py` and `app/views.py`), as a shallow embedding in Lean.

Modelling conventions:
* A cell value is `Value := Option String`: `none` models Python `None`, and
  `some s` models any scalar whose stringification `str(v)` is `s`.
* Python dicts are modelled as association lists (`List (key × value)`), with
  assignment replacing the first matching entry in place (or appending when the
  key is new), which is exactly Python's insertion-order semantics.
* Python whitespace handling (`str.strip`, the regex class for whitespace) is
  modelled over the ASCII whitespace characters; exotic Unicode whitespace and
  Unicode case folding beyond ASCII are outside the model.
-/

/-- A scalar cell value: `none` is Python `None`; `some s` is a value whose
stringification is `s`. -/
abbrev Value := Option String

/-- A row / record: a Python dict modelled as an insertion-ordered association
list from field name to value. -/
abbrev Record := List (String × Value)

/-- Python ASCII whitespace characters, the ASCII part of the class matched by
the regex whitespace class and stripped by `str.strip()`. -/
def isPySpace (c : Char) : Bool :=
  c == ' ' || c == '\t' || c == '\n' || c == '\r' || c == '\x0b' || c == '\x0c'

/-- A lower-case ASCII letter or digit, the character class kept by
`_canonicalize`'s first regex substitution. -/
def isLowerAlnum (c : Char) : Bool :=
  (97 ≤ c.toNat && c.toNat ≤ 122) || (48 ≤ c.toNat && c.toNat ≤ 57)

/-- ASCII lower-casing of one character, modelling `str.lower()` (Unicode
case folding beyond ASCII is outside the model). -/
def lowerChar (c : Char) : Char :=
  if 65 ≤ c.toNat && c.toNat ≤ 90 then Char.ofNat (c.toNat + 32) else c

/-- Left strip, modelling the leading-whitespace part of `str.strip()`. -/
def lstripL (l : List Char) : List Char := l.dropWhile isPySpace

/-- Right strip, modelling the trailing-whitespace part of `str.strip()`. -/
def rstripL (l : List Char) : List Char := (l.reverse.dropWhile isPySpace).reverse

/-- Both-ends strip on character lists, modelling Python `str.strip()`. -/
def pystripL (l : List Char) : List Char := rstripL (lstripL l)

/-- Python `str.strip()` on strings (ASCII whitespace model). -/
def pystrip (s : String) : String := String.mk (pystripL s.data)

/-- First regex substitution of `_canonicalize`: replace every maximal run of
characters outside lower-case ASCII alphanumerics by a single space. -/
def sub1 : List Char → List Char
  | [] => []
  | [c] => if isLowerAlnum c then [c] else [' ']
  | c :: d :: t =>
    if isLowerAlnum c then c :: sub1 (d :: t)
    else if isLowerAlnum d then ' ' :: sub1 (d :: t)
    else sub1 (d :: t)

/-- Second regex substitution of `_canonicalize`: replace every maximal run of
whitespace by a single space. -/
def sub2 : List Char → List Char
  | [] => []
  | [c] => if isPySpace c then [' '] else [c]
  | c :: d :: t =>
    if !isPySpace c then c :: sub2 (d :: t)
    else if isPySpace d then sub2 (d :: t)
    else ' ' :: sub2 (d :: t)

/-- Character-list form of `_canonicalize` from `app/utils/merge.py`:
strip, lower-case, collapse non-alphanumeric runs to one space, collapse
whitespace runs to one space, strip. -/
def canonicalizeL (l : List Char) : List Char :=
  pystripL (sub2 (sub1 ((pystripL l).map lowerChar)))

/-- The header canonicalizer `_canonicalize(name)` from `app/utils/merge.py`. -/
def _canonicalize (s : String) : String := String.mk (canonicalizeL s.data)

/-- The static alias registry `NORMALIZED_COLUMN_ALIASES` from
`app/utils/merge.py`, in source order. -/
def NORMALIZED_COLUMN_ALIASES : List (String × List String) :=
  [ ("organisation_id",
      ["organisation id", "org id", "org_id", "organisationid",
       "organization id", "organization_id", "company id", "company_id"]),
    ("customer", ["customer", "client", "account", "buyer"]),
    ("name", ["name", "contact name", "full name", "contractor", "contractor name"]),
    ("product_status", ["product status", "product_status", "status product"]),
    ("engagement_status",
      ["engagement status", "engagement_status", "status engagement", "project status"]),
    ("carbon_factor", ["carbon factor", "carbon_factor", "co2 factor", "emissions factor"]),
    ("next_activity_due_date",
      ["next activity due date", "next due", "due date", "next_activity", "next action due"]) ]

/-- The header resolver `_map_column(name)` from `app/utils/merge.py`: resolve
the canonicalized header against the alias registry, else pass it through. -/
def _map_column (s : String) : String :=
  let c := _canonicalize s
  match NORMALIZED_COLUMN_ALIASES.find? (fun p => c == p.1 || p.2.contains c) with
  | some p => p.1
  | none => c

/-- Dict lookup on an association list: the value at the first matching key.
Used both for records (string keys) and for `combine_records`' grouping map
(composite-key-tuple keys). -/
def alookup {α β : Type} [BEq α] : List (α × β) → α → Option β
  | [], _ => none
  | p :: t, k => if p.1 == k then some p.2 else alookup t k

/-- Dict assignment `d[k] = v`: replace the first entry with this key in place,
or append a new entry at the end — Python's insertion-order semantics. -/
def aset {α β : Type} [BEq α] : List (α × β) → α → β → List (α × β)
  | [], k, v => [(k, v)]
  | p :: t, k, v => if p.1 == k then (k, v) :: t else p :: aset t k v

/-- Dict `d.setdefault(k, v)`: insert `v` under `k` only when `k` is absent. -/
def setdefaultVal (r : Record) (k : String) (v : Value) : Record :=
  match alookup r k with
  | some _ => r
  | none => r ++ [(k, v)]

/-- Python `rec.get(k)`: the stored value, or `None` when the key is absent. -/
def pyGet (rec : Record) (k : String) : Value := (alookup rec k).getD none

/-- The blank test applied to a stored value in `combine_records`:
`val is None or str(val).strip() == ""`. -/
def isBlankV (v : Value) : Bool :=
  match v with
  | none => true
  | some s => pystrip s == ""

/-- The target-side blank test of `combine_records` line 147:
`col not in target or target[col] is None or str(target[col]).strip() == ""`. -/
def isBlankO (o : Option Value) : Bool :=
  match o with
  | none => true
  | some v => isBlankV v

/-- A value that is non-null and non-blank after trimming, the per-value test
inside `read_table`'s whole-row blank filter
(`v is not None and str(v).strip() != ""`). -/
def vNonblank (v : Value) : Bool :=
  match v with
  | none => false
  | some s => pystrip s != ""

/-- One row of `normalize_records`: route each (header, value) pair into the
output record under the cached canonical name, extending the header cache
`col_map` with `_map_column k` when the header is new
(`app/utils/merge.py` lines 91-97). -/
def normRow (cm : List (String × String)) (rec : Record) :
    Record × List (String × String) :=
  rec.foldl
    (fun oc p =>
      match alookup oc.2 p.1 with
      | some c => (aset oc.1 c p.2, oc.2)
      | none => (aset oc.1 (_map_column p.1) p.2, oc.2 ++ [(p.1, _map_column p.1)]))
    ([], cm)

/-- Loop of `normalize_records` over the rows, threading the header cache. -/
def normLoop (cm : List (String × String)) :
    List Record → List Record × List (String × String)
  | [] => ([], cm)
  | r :: rs =>
    let oc := normRow cm r
    let rest := normLoop oc.2 rs
    (oc.1 :: rest.1, rest.2)

/-- `normalize_records(records)` from `app/utils/merge.py`: normalized rows in
input order plus the header-to-canonical-name map. -/
def normalize_records (records : List Record) :
    List Record × List (String × String) :=
  normLoop [] records

/-- Union of canonical field names over the rows of one table, as collected by
the `cols` set in `infer_key_columns` (membership is all that is consumed). -/
def colsUnion (frame : List Record) : List String :=
  frame.foldl (fun acc r => acc ++ r.map Prod.fst) []

/-- `infer_key_columns(frames, key_options)` from `app/utils/merge.py`: the
first candidate key list all of whose fields appear in every table's column
union, else `None`. -/
def infer_key_columns (frames : List (List Record)) :
    List (List String) → Option (List String)
  | [] => none
  | ks :: rest =>
    if frames.all (fun f => ks.all (fun k => (colsUnion f).contains k))
    then some ks
    else infer_key_columns frames rest

/-- `_compose_key(rec, keys)` from `app/utils/merge.py`: the tuple of trimmed
stringified key-field values, or `None` as soon as one is absent, null, or
blank after trimming. -/
def _compose_key (rec : Record) : List String → Option (List String)
  | [] => some []
  | k :: ks =>
    match pyGet rec k with
    | none => none
    | some sv =>
      let s := pystrip sv
      if s == "" then none
      else
        match _compose_key rec ks with
        | none => none
        | some vs => some (s :: vs)

/-- The field-merge loop of `combine_records` (lines 144-148): for each source
(column, value) pair, skip blank source values, and write the source value only
when the target's current value is missing, null, or blank after trimming. -/
def mergeFields (target : Record) (rec : Record) : Record :=
  rec.foldl
    (fun t p =>
      if isBlankV p.2 then t
      else if isBlankO (alookup t p.1) then aset t p.1 p.2
      else t)
    target

/-- Key-field pre-population of `combine_records` (lines 141-142):
`target.setdefault(key_name, k[i])` for each key field. -/
def prepopulateKeys (keys kv : List String) (t : Record) : Record :=
  (keys.zip kv).foldl (fun t p => setdefaultVal t p.1 (some p.2)) t

/-- One iteration of the `combine_records` grouping loop for a single source
record: compose its key (skipping the record when that fails), fetch or create
the target record, pre-populate key fields, and merge field-by-field. -/
def combineStep (keys : List String)
    (st : List (List String × Record)) (rec : Record) :
    List (List String × Record) :=
  match _compose_key rec keys with
  | none => st
  | some kv =>
    let base := (alookup st kv).getD []
    let t2 := mergeFields (prepopulateKeys keys kv base) rec
    aset st kv t2

/-- `combine_records(frames, keys)` from `app/utils/merge.py`: group all rows
of all tables by composed key and merge them, returning the merged records in
first-seen-key order. -/
def combine_records (frames : List (List Record)) (keys : List String) :
    List Record :=
  (frames.foldl (fun st frame => frame.foldl (combineStep keys) st) []).map Prod.snd

/-- Header normalization of `read_table`'s xlsx branch (line 68):
`str(h) if h is not None else ""` for each header cell. -/
def headerStrs (hs : List Value) : List String :=
  hs.map (fun h => h.getD "")

/-- Row assembly of `read_table`'s xlsx branch (lines 71-75): zip headers with
the row's cells, dropping the pairs whose header is the empty string. -/
def buildRec (headers : List String) (row : List Value) : Record :=
  (headers.zip row).foldl
    (fun rec p => if p.1 == "" then rec else aset rec p.1 p.2) []

/-- Whole-row blank filter of `read_table`'s xlsx branch (line 77): keep the
row only when some value is non-null and non-blank after trimming. -/
def rowKeep (rec : Record) : Bool :=
  rec.any (fun p => vNonblank p.2)

/-- The record list produced by `read_table`'s xlsx branch (lines 69-79),
given the parsed header cells and data rows. -/
def read_table_xlsx_rows (headers : List Value) (rows : List (List Value)) :
    List Record :=
  (rows.map (buildRec (headerStrs headers))).filter rowKeep

/-- The derived due flag computed in `combine` (`app/views.py` line 130):
`bool(rec.get("next_activity_due_date") not in (None, ""))`. -/
def has_next_activity_due (rec : Record) : Bool :=
  match pyGet rec "next_activity_due_date" with
  | none => false
  | some s => s != ""

/-- The bucket chosen by `_vc` (`app/views.py` line 151) for one record:
`str(r.get(field) or "Unknown")` — Python truthiness sends `None` and the
empty string (and only those, for string-valued cells) to `"Unknown"`. -/
def vcKey (r : Record) (field : String) : String :=
  match pyGet r field with
  | none => "Unknown"
  | some s => if s == "" then "Unknown" else s

/-- The count update `counts[key] = counts.get(key, 0) + 1` of `_vc`. -/
def bump : List (String × Nat) → String → List (String × Nat)
  | [], k => [(k, 1)]
  | p :: t, k => if p.1 == k then (p.1, p.2 + 1) :: t else p :: bump t k

/-- `_vc(records, field)` from `app/views.py`: occurrence counts of the
stringified field values, in insertion order of first appearance. -/
def _vc (records : List Record) (field : String) : List (String × Nat) :=
  records.foldl (fun counts r => bump counts (vcKey r field)) []

/-- First-seen deduplication, used to state the insertion-order property of
`_vc`'s result keys. -/
def firstSeen (l : List String) : List String :=
  l.foldl (fun acc k => if acc.contains k then acc else acc ++ [k]) []

/-- ASCII decimal digit test. -/
def isDigitC (c : Char) : Bool := 48 ≤ c.toNat && c.toNat ≤ 57

/-- Numeric value of a list of decimal digit characters. -/
def digitsToNat (l : List Char) : Nat :=
  l.foldl (fun n c => 10 * n + (c.toNat - 48)) 0

/-- Exponent part of a Python float literal: an optional sign followed by at
least one digit. -/
def parseExp (l : List Char) : Option Int :=
  match l with
  | '+' :: r => if !r.isEmpty && r.all isDigitC then some (digitsToNat r : Int) else none
  | '-' :: r => if !r.isEmpty && r.all isDigitC then some (-(digitsToNat r : Int)) else none
  | r => if !r.isEmpty && r.all isDigitC then some (digitsToNat r : Int) else none

/-- Mantissa of a Python float literal: digits with an optional decimal point,
at least one digit overall. Returned as the combined digit value of the
integral and fractional parts together with the fractional length, so that the
mantissa denotes `value / 10 ^ fracLen` — exactly the literal's meaning. -/
def parseMant (l : List Char) : Option (Nat × Nat) :=
  let ip := l.takeWhile (fun c => c != '.')
  match l.dropWhile (fun c => c != '.') with
  | [] =>
    if !ip.isEmpty && ip.all isDigitC then some (digitsToNat ip, 0) else none
  | _ :: fp =>
    if ip.all isDigitC && fp.all isDigitC && (!ip.isEmpty || !fp.isEmpty)
    then some (digitsToNat (ip ++ fp), fp.length)
    else none

/-- The rational `n * 10 ^ e` for an integer mantissa and integer exponent,
built with integer arithmetic and a single normalizing `mkRat`. -/
def ratOfSci (n : Int) (e : Int) : ℚ :=
  if 0 ≤ e then mkRat (n * ((10 : Nat) ^ e.toNat : Nat)) 1
  else mkRat n ((10 : Nat) ^ (-e).toNat)

/-- Python `float(s)` on a string, modelled exactly over finite decimal
literals (optional surrounding whitespace, optional sign, digits with an
optional point, optional exponent), with exact rational arithmetic in place
of binary floating point. The `inf`/`nan` spellings and underscore digit
separators accepted by Python are outside the model, as is floating-point
rounding. -/
def pyFloat (s : String) : Option ℚ :=
  let l := pystripL s.data
  let sl : Int × List Char :=
    match l with
    | '+' :: r => (1, r)
    | '-' :: r => (-1, r)
    | r => (1, r)
  let mant := sl.2.takeWhile (fun c => c != 'e' && c != 'E')
  match sl.2.dropWhile (fun c => c != 'e' && c != 'E') with
  | [] => (parseMant mant).map (fun p => ratOfSci (sl.1 * p.1) (-(p.2 : Int)))
  | _ :: ex =>
    match parseMant mant, parseExp ex with
    | some p, some e => some (ratOfSci (sl.1 * p.1) (e - (p.2 : Int)))
    | _, _ => none

/-- `_to_float(v)` from `app/views.py` (lines 158-164): `None` for null or
blank-after-trim values, else the float value of the string with all commas
removed, with any parse failure yielding `None`. -/
def _to_float (v : Value) : Option ℚ :=
  match v with
  | none => none
  | some s =>
    if pystrip s == "" then none
    else pyFloat (String.mk (s.data.filter (fun c => c != ',')))

/-- The parsed numeric values `cf_values` of the dashboard view
(`app/views.py` line 166). -/
def cf_values (records : List Record) : List ℚ :=
  records.filterMap (fun r => _to_float (pyGet r "carbon_factor"))

/-- The `carbon_factor_stats` triple (average, minimum, maximum) of the
dashboard view (`app/views.py` lines 167-171), with 0 for all three when no
value parses. -/
def carbon_factor_stats (records : List Record) : ℚ × ℚ × ℚ :=
  match cf_values records with
  | [] => (0, 0, 0)
  | a :: t =>
    ((a :: t).foldl (· + ·) 0 / ((a :: t).length : ℚ),
     t.foldl min a, t.foldl max a)

/-- Left-biased choice on options, used to state lookup lemmas. -/
def orO {β : Type} : Option β → Option β → Option β
  | some v, _ => some v
  | none, b => b

/-- The acceptance test of `infer_key_columns`, as a Boolean predicate:
every field of the candidate appears in every table's column union. -/
def candidateOk (frames : List (List Record)) (ks : List String) : Bool :=
  frames.all (fun f => ks.all (fun k => (colsUnion f).contains k))

/-- The header cache `col_map` of `normalize_records` only ever stores the
value `_map_column` would compute. -/
def cmOK (cm : List (String × String)) : Prop :=
  ∀ q ∈ cm, q.2 = _map_column q.1

/-- Invariant of the `combine_records` grouping map: every stored merged
record has a non-null, non-blank value at every key field. -/
def goodState (keys : List String) (st : List (List String × Record)) : Prop :=
  ∀ e ∈ st, ∀ k ∈ keys, vNonblank (pyGet e.2 k) = true

/-- Shape invariant of canonicalized text, part 1: every character is a
lower-case ASCII alphanumeric or a space. -/
def charsOK (l : List Char) : Prop :=
  ∀ c ∈ l, isLowerAlnum c = true ∨ c = ' '

/-- Shape invariant of canonicalized text, part 2: no two adjacent spaces. -/
def noTwoSp : List Char → Bool
  | c :: d :: t => (!(c == ' ' && d == ' ')) && noTwoSp (d :: t)
  | _ => true

theorem orO_none_left {β : Type} (b : Option β) : orO none b = b := rfl

theorem orO_some_left {β : Type} (v : β) (b : Option β) : orO (some v) b = some v := rfl

theorem orO_none_right {β : Type} (a : Option β) : orO a none = a := by
  cases a <;> rfl

theorem alookup_aset {α β : Type} [BEq α] [LawfulBEq α]
    (t : List (α × β)) (k k' : α) (v : β) :
    alookup (aset t k v) k' = if k == k' then some v else alookup t k' := by
  induction t with
  | nil => simp [aset, alookup]
  | cons p t ih =>
    simp only [aset, alookup]
    by_cases h1 : p.1 = k
    · by_cases h2 : k = k' <;> simp_all [alookup]
    · by_cases h2 : k = k' <;> by_cases h3 : p.1 = k' <;> simp_all [alookup]

theorem alookup_append {α β : Type} [BEq α] (l₁ l₂ : List (α × β)) (k : α) :
    alookup (l₁ ++ l₂) k = orO (alookup l₁ k) (alookup l₂ k) := by
  induction l₁ with
  | nil => simp [alookup, orO]
  | cons p t ih =>
    by_cases h : p.1 == k
    · simp [alookup, h, orO]
    · simp only [List.cons_append, alookup, h, Bool.false_eq_true, if_false]
      exact ih

theorem alookup_setdefault (r : Record) (k k' : String) (v : Value) :
    alookup (setdefaultVal r k v) k' =
      orO (alookup r k') (if k == k' then some v else none) := by
  unfold setdefaultVal
  cases h : alookup r k with
  | some w =>
    by_cases h2 : k = k'
    · subst h2; simp [h, orO]
    · have hb : (k == k') = false := by simp [h2]
      simp [hb, orO_none_right]
  | none =>
    rw [alookup_append]
    have : alookup [(k, v)] k' = if k == k' then some v else none := by
      simp [alookup]
    rw [this]

theorem mem_aset {α β : Type} [BEq α] (t : List (α × β)) (k : α) (v : β)
    (e : α × β) : e ∈ aset t k v → e ∈ t ∨ e = (k, v) := by
  induction t with
  | nil => intro h; simp [aset] at h; right; exact h
  | cons p t ih =>
    intro h
    by_cases hb : p.1 == k
    · simp only [aset, hb, if_true] at h
      rcases List.mem_cons.mp h with h | h
      · right; exact h
      · left; exact List.mem_cons_of_mem _ h
    · simp only [aset, hb, Bool.false_eq_true, if_false] at h
      rcases List.mem_cons.mp h with h | h
      · left; exact h ▸ List.mem_cons_self _ _
      · rcases ih h with h | h
        · left; exact List.mem_cons_of_mem _ h
        · right; exact h

theorem alookup_mem {α β : Type} [BEq α] [LawfulBEq α]
    (t : List (α × β)) (k : α) (v : β) : alookup t k = some v → (k, v) ∈ t := by
  induction t with
  | nil => intro h; simp [alookup] at h
  | cons p t ih =>
    intro h
    by_cases hb : p.1 == k
    · simp only [alookup, hb, if_true, Option.some.injEq] at h
      have hk : p.1 = k := by simpa using hb
      have hp : p = (k, v) := by
        cases p
        simp only [Prod.mk.injEq]
        exact ⟨hk, h⟩
      rw [← hp]
      exact List.mem_cons_self p t
    · simp only [alookup, hb, Bool.false_eq_true, if_false] at h
      exact List.mem_cons_of_mem _ (ih h)

theorem dropWhile_idem (p : Char → Bool) (l : List Char) :
    List.dropWhile p (List.dropWhile p l) = List.dropWhile p l := by
  induction l with
  | nil => rfl
  | cons a t ih =>
    by_cases h : p a
    · simp [List.dropWhile_cons, h, ih]
    · simp [List.dropWhile_cons, h]

theorem head?_dropWhile (p : Char → Bool) (l : List Char) (c : Char) :
    (List.dropWhile p l).head? = some c → p c = false := by
  induction l with
  | nil => intro h; simp [List.dropWhile] at h
  | cons a t ih =>
    intro h
    by_cases hp : p a
    · exact ih (by simpa [List.dropWhile_cons, hp] using h)
    · have ha : p a = false := by simpa using hp
      rw [List.dropWhile_cons, ha] at h
      simp only [Bool.false_eq_true, if_false, List.head?_cons,
        Option.some.injEq] at h
      exact h ▸ ha

theorem rstrip_append (l : List Char) :
    l = rstripL l ++ (l.reverse.takeWhile isPySpace).reverse := by
  conv_lhs => rw [← List.reverse_reverse l,
    ← List.takeWhile_append_dropWhile (p := isPySpace) (l := l.reverse)]
  rw [List.reverse_append]
  rfl

theorem rstrip_idem (l : List Char) : rstripL (rstripL l) = rstripL l := by
  simp [rstripL, List.reverse_reverse, dropWhile_idem]

theorem pystripL_idem (l : List Char) : pystripL (pystripL l) = pystripL l := by
  unfold pystripL
  have key : lstripL (rstripL (lstripL l)) = rstripL (lstripL l) := by
    cases h : rstripL (lstripL l) with
    | nil => simp [lstripL]
    | cons a r =>
      have hpref := rstrip_append (lstripL l)
      rw [h] at hpref
      have hhead : (lstripL l).head? = some a := by
        rw [hpref]; rfl
      have ha : isPySpace a = false := head?_dropWhile _ _ _ hhead
      simp [lstripL, List.dropWhile_cons, ha]
  rw [key, rstrip_idem]

theorem pystrip_idem (s : String) : pystrip (pystrip s) = pystrip s := by
  unfold pystrip
  exact congrArg String.mk (pystripL_idem s.data)

/-- Full characterization of one field of the merge loop of `combine_records`:
when the target's current value is missing, null, or blank after trimming, the
field receives the first non-blank source value for that column (staying put
when there is none); otherwise the field is untouched. -/
theorem mergeFields_lookup (target rec : Record) (col : String) :
    alookup (mergeFields target rec) col =
      if isBlankO (alookup target col) then
        orO (((rec.filter (fun p => p.1 == col)).find?
                (fun p => !isBlankV p.2)).map Prod.snd)
            (alookup target col)
      else alookup target col := by
  induction rec generalizing target with
  | nil =>
    simp only [mergeFields, List.foldl_nil, List.filter_nil, List.find?_nil,
      Option.map_none', orO_none_left]
    split <;> rfl
  | cons p rec ih =>
    simp only [mergeFields, List.foldl_cons] at ih ⊢
    by_cases hcol : p.1 = col
    · by_cases hbv : isBlankV p.2
      · simp only [hbv, if_true]
        rw [ih target]
        simp [List.filter_cons, List.find?_cons, hcol, hbv]
      · have hbv' : isBlankV p.2 = false := by simpa using hbv
        by_cases hbo : isBlankO (alookup target col)
        · -- target blank at col: this pair writes
          have hbo2 : isBlankO (alookup target p.1) = true := by rw [hcol]; exact hbo
          simp only [hbv', Bool.false_eq_true, if_false, hbo2, if_true]
          rw [ih (aset target p.1 p.2)]
          have hl : alookup (aset target p.1 p.2) col = some p.2 := by
            rw [alookup_aset]; simp [hcol]
          rw [hl]
          have hnb : isBlankO (some p.2) = false := by
            simp [isBlankO, hbv']
          simp [hnb, List.filter_cons, List.find?_cons, hbv', orO, hcol, hbo]
        · have hbo' : isBlankO (alookup target col) = false := by simpa using hbo
          have hbo2 : isBlankO (alookup target p.1) = false := by rw [hcol]; exact hbo'
          simp only [hbv', Bool.false_eq_true, if_false, hbo2, if_false]
          rw [ih target]
          simp [hbo']
    · have hcol' : (p.1 == col) = false := by simp [hcol]
      have hpres : ∀ t2 : Record,
          (if isBlankV p.2 then t2
           else if isBlankO (alookup t2 p.1) then aset t2 p.1 p.2 else t2) = t2 ∨
          alookup (if isBlankV p.2 then t2
           else if isBlankO (alookup t2 p.1) then aset t2 p.1 p.2 else t2) col =
            alookup t2 col := by
        intro t2
        by_cases h1 : isBlankV p.2
        · left; simp [h1]
        · by_cases h2 : isBlankO (alookup t2 p.1)
          · right
            simp only [h1, Bool.false_eq_true, if_false, h2, if_true]
            rw [alookup_aset]
            simp [hcol]
          · left; simp [h1, h2]
      rcases hpres target with heq | heq
      · rw [heq, ih target]
        simp [List.filter_cons, hcol']
      · rw [ih]
        rw [heq]
        simp [List.filter_cons, hcol']

/-- A field whose target value is already non-blank is never changed by the
merge loop. -/
theorem mergeFields_nonblank_preserved (t rec : Record) (col : String)
    (h : isBlankO (alookup t col) = false) :
    alookup (mergeFields t rec) col = alookup t col := by
  rw [mergeFields_lookup, h]
  simp

/-- C1: in `combine_records`, a source value overwrites the target's current
field value only when the target's value is missing, null, or blank after
trimming and the source value is non-null and non-blank: the field's final
value is its old value whenever that was non-blank, and otherwise the first
non-blank source value (the old value when there is none) — so a populated
field is never changed and a blank is never written. Conjoined with the
end-to-end instance: a record with `product_status="Active"` merged before a
same-key record with `product_status=""` keeps `"Active"`. -/
theorem spec_c1_merge_conflict_policy :
    (∀ (target rec : Record) (col : String),
      alookup (mergeFields target rec) col =
        if isBlankO (alookup target col) then
          orO (((rec.filter (fun p => p.1 == col)).find?
                  (fun p => !isBlankV p.2)).map Prod.snd)
              (alookup target col)
        else alookup target col) ∧
    combine_records
      [[[("organisation_id", some "1"), ("product_status", some "Active")]],
       [[("organisation_id", some "1"), ("product_status", some "")]]]
      ["organisation_id"] =
    [[("organisation_id", some "1"), ("product_status", some "Active")]] :=
  ⟨mergeFields_lookup, by decide⟩

/-- C5: a source record whose composed key is `None` contributes nothing to
`combine_records` (deleting it from its frame leaves the result unchanged),
and `combine_records` is total, with empty input giving the empty dataset. -/
theorem spec_c5_unkeyable_skipped_and_total :
    (∀ (keys : List String) (F1 F2 : List (List Record))
       (A B : List Record) (rec : Record),
      _compose_key rec keys = none →
      combine_records (F1 ++ (A ++ rec :: B) :: F2) keys =
        combine_records (F1 ++ (A ++ B) :: F2) keys) ∧
    (∀ keys : List String, combine_records [] keys = []) := by
  constructor
  · intro keys F1 F2 A B rec h
    have hstep : ∀ st, combineStep keys st rec = st := by
      intro st; unfold combineStep; rw [h]
    unfold combine_records
    congr 1
    rw [List.foldl_append, List.foldl_append]
    simp only [List.foldl_cons]
    congr 1
    rw [List.foldl_append, List.foldl_append]
    simp only [List.foldl_cons]
    rw [hstep]
  · intro keys; rfl

theorem spec_c5_witness :
    combine_records [[[("name", some "Bob")]]] ["organisation_id"] =
      combine_records [[]] ["organisation_id"] :=
  spec_c5_unkeyable_skipped_and_total.1 ["organisation_id"] [] [] [] []
    [("name", some "Bob")] (by decide)

theorem orO_assoc {β : Type} (a b c : Option β) :
    orO (orO a b) c = orO a (orO b c) := by
  cases a <;> cases b <;> rfl

/-- A successfully composed key supplies, for every key field, a trimmed
non-empty tuple entry, locatable in the zipped key/value pair list. -/
theorem compose_key_find (keys : List String) (rec : Record)
    (kv : List String) (h : _compose_key rec keys = some kv) :
    ∀ k ∈ keys, ∃ s, (keys.zip kv).find? (fun p => p.1 == k) = some (k, s) ∧
      s ≠ "" ∧ pystrip s = s := by
  induction keys generalizing kv with
  | nil => intro k hk; simp at hk
  | cons k0 ks ih =>
    intro k hk
    unfold _compose_key at h
    cases hv : pyGet rec k0 with
    | none => rw [hv] at h; simp at h
    | some sv =>
      rw [hv] at h
      simp only at h
      by_cases hblank : pystrip sv == ""
      · rw [if_pos hblank] at h; simp at h
      · rw [if_neg hblank] at h
        cases hrest : _compose_key rec ks with
        | none => rw [hrest] at h; simp at h
        | some vs =>
          rw [hrest] at h
          simp only [Option.some.injEq] at h
          subst h
          by_cases hk0 : k0 = k
          · refine ⟨pystrip sv, ?_, ?_, pystrip_idem sv⟩
            · simp [List.zip_cons_cons, List.find?_cons, hk0]
            · intro hcon
              exact hblank (by simp [hcon])
          · have hb : (k0 == k) = false := by simp [hk0]
            have hk' : k ∈ ks := by
              rcases List.mem_cons.mp hk with h | h
              · exact absurd h.symm hk0
              · exact h
            obtain ⟨s, hfind, hs⟩ := ih vs hrest k hk'
            exact ⟨s, by simp [List.zip_cons_cons, List.find?_cons, hb, hfind], hs⟩

/-- Lookup after the key pre-population fold: an existing entry survives, and
a missing one is filled from the first matching (key, value) pair. -/
theorem alookup_prepopulate (pairs : List (String × String)) (t : Record)
    (k : String) :
    alookup (pairs.foldl (fun t p => setdefaultVal t p.1 (some p.2)) t) k =
      orO (alookup t k)
        ((pairs.find? (fun p => p.1 == k)).map (fun p => some p.2)) := by
  induction pairs generalizing t with
  | nil => simp [orO_none_right]
  | cons p pairs ih =>
    simp only [List.foldl_cons]
    rw [ih, alookup_setdefault, orO_assoc]
    by_cases hb : p.1 == k
    · simp [List.find?_cons, hb, orO]
    · simp [List.find?_cons, hb, orO_none_left]

/-- Unfolds `vNonblank` into the existence of a trimmed non-empty string. -/
theorem vNonblank_iff (v : Value) :
    vNonblank v = true ↔ ∃ s, v = some s ∧ pystrip s ≠ "" := by
  cases v with
  | none => simp [vNonblank]
  | some s =>
    simp only [vNonblank]
    constructor
    · intro h
      exact ⟨s, rfl, by simpa using h⟩
    · rintro ⟨s', hs', hne⟩
      obtain rfl : s = s' := by simpa using hs'
      simpa using hne

theorem combineStep_good (keys : List String)
    (st : List (List String × Record)) (rec : Record)
    (hg : goodState keys st) : goodState keys (combineStep keys st rec) := by
  unfold combineStep
  cases h : _compose_key rec keys with
  | none => exact hg
  | some kv =>
    intro e he k hk
    rcases mem_aset _ _ _ _ he with he | he
    · exact hg e he k hk
    · subst he
      simp only
      obtain ⟨s, hfind, hs_ne, hs_idem⟩ := compose_key_find keys rec kv h k hk
      have hbase : ∃ u, alookup
          (prepopulateKeys keys kv ((alookup st kv).getD [])) k = some (some u) ∧
          pystrip u ≠ "" := by
        rw [prepopulateKeys, alookup_prepopulate, hfind]
        cases hb : alookup st kv with
        | none =>
          refine ⟨s, ?_, ?_⟩
          · simp [alookup, orO]
          · rw [hs_idem]; exact hs_ne
        | some b =>
          have hbmem : (kv, b) ∈ st := alookup_mem st kv b hb
          have := hg (kv, b) hbmem k hk
          rw [vNonblank_iff] at this
          obtain ⟨u, hu, hune⟩ := this
          have hbu : alookup b k = some (some u) := by
            unfold pyGet at hu
            cases hbk : alookup b k with
            | none => rw [hbk] at hu; simp at hu
            | some w => rw [hbk] at hu; simp at hu; rw [hu]
          refine ⟨u, ?_, hune⟩
          simp only [Option.getD_some, hbu, orO]
      obtain ⟨u, hu, hune⟩ := hbase
      have hnb : isBlankO (alookup
          (prepopulateKeys keys kv ((alookup st kv).getD [])) k) = false := by
        rw [hu]
        simp only [isBlankO, isBlankV]
        simpa using hune
      rw [vNonblank_iff]
      refine ⟨u, ?_, hune⟩
      unfold pyGet
      rw [mergeFields_nonblank_preserved _ _ _ hnb, hu]
      rfl

theorem frame_fold_good (keys : List String) (frame : List Record) :
    ∀ st, goodState keys st →
      goodState keys (frame.foldl (combineStep keys) st) := by
  induction frame with
  | nil => intro st hg; exact hg
  | cons r frame ih =>
    intro st hg
    simp only [List.foldl_cons]
    exact ih _ (combineStep_good keys st r hg)

theorem frames_fold_good (keys : List String) (frames : List (List Record)) :
    ∀ st, goodState keys st →
      goodState keys
        (frames.foldl (fun st frame => frame.foldl (combineStep keys) st) st) := by
  induction frames with
  | nil => intro st hg; exact hg
  | cons f frames ih =>
    intro st hg
    simp only [List.foldl_cons]
    exact ih _ (frame_fold_good keys f st hg)

/-- C9: every merged record produced by `combine_records` carries, at every
field of the join key, a non-null value whose trimmed stringification is
non-empty. -/
theorem spec_c9_key_fields_populated (frames : List (List Record))
    (keys : List String) (r : Record)
    (hr : r ∈ combine_records frames keys) :
    ∀ k ∈ keys, vNonblank (pyGet r k) = true := by
  intro k hk
  unfold combine_records at hr
  obtain ⟨e, he, hre⟩ := List.mem_map.mp hr
  have hgood : goodState keys
      (frames.foldl (fun st frame => frame.foldl (combineStep keys) st) []) :=
    frames_fold_good keys frames [] (by intro e he; simp at he)
  rw [← hre]
  exact hgood e he k hk

theorem infer_eq_find? (frames : List (List Record))
    (key_options : List (List String)) :
    infer_key_columns frames key_options =
      key_options.find? (candidateOk frames) := by
  induction key_options with
  | nil => rfl
  | cons ks rest ih =>
    unfold infer_key_columns
    rw [List.find?_cons]
    cases h : candidateOk frames ks with
    | true =>
      have h' : (frames.all fun f => ks.all fun k => (colsUnion f).contains k) = true := h
      rw [if_pos h']
    | false =>
      have h' : (frames.all fun f => ks.all fun k => (colsUnion f).contains k) = false := h
      have hn : ¬ ((frames.all fun f => ks.all fun k => (colsUnion f).contains k) = true) := by
        intro hcon
        rw [hcon] at h'
        exact Bool.noConfusion h'
      rw [if_neg hn]
      exact ih

theorem candidateOk_iff (frames : List (List Record)) (ks : List String) :
    candidateOk frames ks = true ↔
      ∀ f ∈ frames, ∀ k ∈ ks, k ∈ colsUnion f := by
  simp [candidateOk, List.all_eq_true, List.elem_iff]

/-- C4: `infer_key_columns` returns exactly the first candidate key list (in
the caller's order) all of whose fields appear in the union of field names
over the rows of every table, and returns `None` exactly when no candidate
passes that test for every table. Conjoined with the two spec instances:
priority of `[organisation_id]` over `[customer, name]` when both are valid,
and failure when table A only ever has `customer`, table B only `name`, and
`organisation_id` is not everywhere. -/
theorem spec_c4_key_inference (frames : List (List Record))
    (key_options : List (List String)) :
    (infer_key_columns frames key_options =
       key_options.find? (candidateOk frames)) ∧
    (infer_key_columns frames key_options = none ↔
       ∀ ks ∈ key_options, ¬ ∀ f ∈ frames, ∀ k ∈ ks, k ∈ colsUnion f) ∧
    infer_key_columns
      [[[("organisation_id", some "1"), ("customer", some "x"),
         ("name", some "y")]]]
      [["organisation_id"], ["customer", "name"]] = some ["organisation_id"] ∧
    infer_key_columns
      [[[("customer", some "Acme")]], [[("name", some "Bob")]]]
      [["organisation_id"], ["customer", "name"]] = none := by
  refine ⟨infer_eq_find? frames key_options, ?_, by decide, by decide⟩
  rw [infer_eq_find? frames key_options, List.find?_eq_none]
  constructor
  · intro h ks hks hall
    exact h ks hks ((candidateOk_iff frames ks).mpr hall)
  · intro h ks hks hok
    exact h ks hks ((candidateOk_iff frames ks).mp hok)

/-- C2 counterexample: `normalize_records` keeps a row all of whose values are
blank — the row `a ↦ ""` appears unchanged in the normalized output, and it
fails the non-blank test used elsewhere for row filtering. -/
theorem spec_c2_counterexample :
    (normalize_records [[("a", some "")]]).1 = [[("a", some "")]] ∧
    rowKeep [("a", some "")] = false := by decide

/-- C2 amended: `normalize_records` drops no rows at all (output length equals
input length); the whole-row blank filter lives in `read_table`'s spreadsheet
branch, which keeps an assembled row exactly when some value is non-null and
non-blank after trimming. -/
theorem spec_c2_blank_row_filter :
    (∀ records : List Record,
      ((normalize_records records).1).length = records.length) ∧
    (∀ (headers : List Value) (rows : List (List Value)) (r : Record),
      r ∈ read_table_xlsx_rows headers rows ↔
        r ∈ rows.map (buildRec (headerStrs headers)) ∧ rowKeep r = true) := by
  constructor
  · intro records
    have key : ∀ (rs : List Record) (cm : List (String × String)),
        (normLoop cm rs).1.length = rs.length := by
      intro rs
      induction rs with
      | nil => intro cm; rfl
      | cons r rs ih => intro cm; simp [normLoop, ih]
    exact key records []
  · intro headers rows r
    simp [read_table_xlsx_rows, List.mem_filter]

theorem normRow_fold (rec : Record) :
    ∀ (out : Record) (cm : List (String × String)), cmOK cm →
      (rec.foldl
        (fun oc p =>
          match alookup oc.2 p.1 with
          | some c => (aset oc.1 c p.2, oc.2)
          | none => (aset oc.1 (_map_column p.1) p.2,
                     oc.2 ++ [(p.1, _map_column p.1)]))
        (out, cm)).1 =
        rec.foldl (fun o p => aset o (_map_column p.1) p.2) out ∧
      cmOK (rec.foldl
        (fun oc p =>
          match alookup oc.2 p.1 with
          | some c => (aset oc.1 c p.2, oc.2)
          | none => (aset oc.1 (_map_column p.1) p.2,
                     oc.2 ++ [(p.1, _map_column p.1)]))
        (out, cm)).2 := by
  induction rec with
  | nil => intro out cm h; exact ⟨rfl, h⟩
  | cons p rec ih =>
    intro out cm h
    simp only [List.foldl_cons]
    cases halk : alookup cm p.1 with
    | some c =>
      have hc : c = _map_column p.1 := h (p.1, c) (alookup_mem cm p.1 c halk)
      subst hc
      exact ih (aset out (_map_column p.1) p.2) cm h
    | none =>
      have h2 : cmOK (cm ++ [(p.1, _map_column p.1)]) := by
        intro q hq
        rcases List.mem_append.mp hq with hq | hq
        · exact h q hq
        · simp at hq
          rw [hq]
      exact ih (aset out (_map_column p.1) p.2) (cm ++ [(p.1, _map_column p.1)]) h2

theorem alookup_asetfold (rec : Record) :
    ∀ (out : Record) (c : String),
      alookup (rec.foldl (fun o p => aset o (_map_column p.1) p.2) out) c =
        orO ((rec.reverse.find? (fun p => _map_column p.1 == c)).map Prod.snd)
          (alookup out c) := by
  induction rec with
  | nil => intro out c; simp [orO]
  | cons p rec ih =>
    intro out c
    simp only [List.foldl_cons, List.reverse_cons]
    rw [ih, List.find?_append, alookup_aset]
    cases hf : rec.reverse.find? (fun p => _map_column p.1 == c) with
    | some q => simp [orO]
    | none =>
      simp only [Option.map_none', orO_none_left, Option.none_or]
      by_cases hp : _map_column p.1 == c
      · simp [List.find?_cons, hp, orO]
      · simp [List.find?_cons, hp, orO]

theorem normLoop_getD (records : List Record) :
    ∀ (cm : List (String × String)) (i : Nat) (c : String), cmOK cm →
      alookup ((normLoop cm records).1.getD i []) c =
        ((records.getD i []).reverse.find?
          (fun p => _map_column p.1 == c)).map Prod.snd := by
  induction records with
  | nil => intro cm i c _; simp [normLoop, alookup]
  | cons r rs ih =>
    intro cm i c h
    obtain ⟨hout, hcm⟩ := normRow_fold r [] cm h
    cases i with
    | zero =>
      simp only [normLoop, List.getD_cons_zero]
      show alookup (normRow cm r).1 c = _
      rw [show (normRow cm r).1 =
        r.foldl (fun o p => aset o (_map_column p.1) p.2) [] from hout]
      rw [alookup_asetfold]
      simp [alookup, orO_none_right]
    | succ i =>
      simp only [normLoop, List.getD_cons_succ]
      exact ih (normRow cm r).2 i c hcm

/-- C10: within one row of `normalize_records`, when several raw headers map
to the same canonical field, the value of the header iterated later wins —
the normalized row's value at a canonical name is the value of the last
(in iteration order) raw-header pair mapping to it, blank or not. -/
theorem spec_c10_last_header_wins (records : List Record) (i : Nat)
    (c : String) :
    alookup (((normalize_records records).1).getD i []) c =
      (((records.getD i []).reverse.find?
        (fun p => _map_column p.1 == c)).map Prod.snd) := by
  unfold normalize_records
  exact normLoop_getD records [] i c (by intro q hq; simp at hq)

/-- C3 counterexample: a record whose `next_activity_due_date` is a
whitespace-only string (blank after trimming) still gets
`has_next_activity_due = true`, because the code tests membership in
`(None, "")` without trimming. -/
theorem spec_c3_counterexample :
    has_next_activity_due [("next_activity_due_date", some " ")] = true ∧
    pystrip " " = "" := by decide

/-- C3 amended: `has_next_activity_due` is true exactly when the
`next_activity_due_date` value is a string different from the empty string —
no trimming is applied, so a whitespace-only value yields true, while the
empty string and a missing or null value yield false. -/
theorem spec_c3_due_flag :
    (∀ rec : Record, has_next_activity_due rec = true ↔
      ∃ s, pyGet rec "next_activity_due_date" = some s ∧ s ≠ "") ∧
    has_next_activity_due [("next_activity_due_date", some "")] = false ∧
    has_next_activity_due [("next_activity_due_date", some "2024-01-01")] = true ∧
    has_next_activity_due [("next_activity_due_date", some " ")] = true := by
  refine ⟨?_, by decide, by decide, by decide⟩
  intro rec
  unfold has_next_activity_due
  cases h : pyGet rec "next_activity_due_date" with
  | none => simp
  | some s =>
    simp only [ne_eq, Option.some.injEq]
    constructor
    · intro hs
      exact ⟨s, rfl, by simpa using hs⟩
    · rintro ⟨s', hs', hne⟩
      subst hs'
      simpa using hne

/-- C6: the dashboard numeric statistics are computed over exactly the records
whose `carbon_factor` parses as a number after comma removal: the spec's
example list yields average `(10+20000)/2`, minimum 10 and maximum 20000; a
record whose value is null, blank, or non-numeric leaves all three statistics
unchanged (rather than being treated as zero); and with no parsed values all
three statistics are 0. -/
theorem spec_c6_numeric_stats :
    carbon_factor_stats
      [[("carbon_factor", some "10")], [("carbon_factor", some "abc")],
       [("carbon_factor", some "20,000")], [("carbon_factor", none)]] =
      ((10 + 20000) / 2, 10, 20000) ∧
    (∀ (records : List Record) (r : Record),
      _to_float (pyGet r "carbon_factor") = none →
      carbon_factor_stats (r :: records) = carbon_factor_stats records) ∧
    (∀ records : List Record, cf_values records = [] →
      carbon_factor_stats records = (0, 0, 0)) := by
  refine ⟨?_, ?_, ?_⟩
  · have h : cf_values
        [[("carbon_factor", some "10")], [("carbon_factor", some "abc")],
         [("carbon_factor", some "20,000")], [("carbon_factor", none)]] =
        [10, 20000] := by decide
    rw [carbon_factor_stats, h]
    norm_num
  · intro records r h
    have hval : cf_values (r :: records) = cf_values records := by
      simp [cf_values, List.filterMap_cons, h]
    unfold carbon_factor_stats
    rw [hval]
  · intro records h
    unfold carbon_factor_stats
    rw [h]

theorem spec_c6_witness :
    carbon_factor_stats
      [[("carbon_factor", some "abc")], [("carbon_factor", some "10")]] =
      carbon_factor_stats [[("carbon_factor", some "10")]] ∧
    carbon_factor_stats [[("name", some "x")]] = (0, 0, 0) :=
  ⟨spec_c6_numeric_stats.2.1 [[("carbon_factor", some "10")]]
      [("carbon_factor", some "abc")] (by decide),
   spec_c6_numeric_stats.2.2 [[("name", some "x")]] (by decide)⟩

/-- C7 counterexample: a whitespace-only value — blank after trimming — is
counted under its own text `" "`, not under `"Unknown"`, because `_vc` tests
Python truthiness rather than blankness after trimming. -/
theorem spec_c7_counterexample :
    _vc [[("engagement_status", some " ")]] "engagement_status" = [(" ", 1)] ∧
    (" " : String) ≠ "Unknown" ∧ pystrip " " = "" := by decide

theorem bump_keys (acc : List (String × Nat)) (k : String) :
    (bump acc k).map Prod.fst =
      if (acc.map Prod.fst).contains k then acc.map Prod.fst
      else acc.map Prod.fst ++ [k] := by
  induction acc with
  | nil => simp [bump]
  | cons p acc ih =>
    by_cases hb : p.1 = k
    · simp [bump, hb]
    · have hb' : (p.1 == k) = false := by simp [hb]
      have hb2 : (k == p.1) = false := by simp [Ne.symm hb]
      simp only [bump, hb', Bool.false_eq_true, if_false, List.map_cons, ih,
        List.contains_cons, hb2, Bool.false_or]
      split_ifs with hc <;> rfl

theorem bump_alookup (acc : List (String × Nat)) (k k' : String) :
    alookup (bump acc k) k' =
      if k == k' then
        (match alookup acc k' with
         | some n => some (n + 1)
         | none => some 1)
      else alookup acc k' := by
  induction acc with
  | nil =>
    by_cases h : k = k' <;> simp [bump, alookup, h]
  | cons p acc ih =>
    by_cases hpk : p.1 = k
    · by_cases hkk : k = k'
      · have h1 : p.1 = k' := hkk ▸ hpk
        simp [bump, alookup, hpk, hkk, h1]
      · have h1 : (p.1 == k') = false := by
          have : p.1 ≠ k' := fun hcon => hkk (hpk ▸ hcon)
          simp [this]
        simp [bump, alookup, hpk, hkk, h1]
    · have hpk' : (p.1 == k) = false := by simp [hpk]
      by_cases hpk2 : p.1 = k'
      · have hne : k ≠ k' := fun hcon => hpk (hpk2.trans hcon.symm)
        have hne' : k' ≠ k := Ne.symm hne
        simp [bump, alookup, hpk', hpk2, hne, hne']
      · have h2 : (p.1 == k') = false := by simp [hpk2]
        simp [bump, alookup, hpk', h2, ih]

theorem vc_fold_keys (ks : List String) :
    ∀ acc : List (String × Nat),
      ((ks.foldl bump acc).map Prod.fst) =
        ks.foldl (fun a k => if a.contains k then a else a ++ [k])
          (acc.map Prod.fst) := by
  induction ks with
  | nil => intro acc; rfl
  | cons k ks ih =>
    intro acc
    simp only [List.foldl_cons]
    rw [ih (bump acc k), bump_keys]

theorem vc_fold_count (ks : List String) :
    ∀ (acc : List (String × Nat)) (k : String),
      alookup (ks.foldl bump acc) k =
        (match alookup acc k with
         | some n => some (n + ks.count k)
         | none => if ks.count k = 0 then none else some (ks.count k)) := by
  induction ks with
  | nil =>
    intro acc k
    simp only [List.foldl_nil, List.count_nil]
    cases h : alookup acc k <;> simp [h]
  | cons a ks ih =>
    intro acc k
    simp only [List.foldl_cons]
    rw [ih (bump acc a) k, bump_alookup]
    by_cases hak : a = k
    · have hb : (a == k) = true := by simp [hak]
      have hcnt : (a :: ks).count k = ks.count k + 1 := by
        simp [List.count_cons, hak]
      rw [hcnt, if_pos hb]
      cases hv : alookup acc k with
      | some n =>
        simp only [hv]
        have : n + 1 + ks.count k = n + (ks.count k + 1) := by omega
        rw [this]
      | none =>
        simp only [hv]
        have h1 : ¬ (ks.count k + 1 = 0) := by omega
        rw [if_neg h1]
        have : 1 + ks.count k = ks.count k + 1 := by omega
        rw [this]
    · have hb : ¬ ((a == k) = true) := by simp [hak]
      have hcnt : (a :: ks).count k = ks.count k := by
        simp [List.count_cons, hak]
      rw [hcnt, if_neg hb]

/-- C7 amended: `_vc` counts occurrences of the stringified field value, with
the literal `"Unknown"` bucket used for a missing, null, or empty-string value
(Python falsiness) — a whitespace-only value keeps its own text as bucket —
entries appearing in insertion order of first-seen bucket, and each bucket's
count equal to its number of occurrences. -/
theorem spec_c7_value_counts (records : List Record) (field : String) :
    ((_vc records field).map Prod.fst =
      firstSeen (records.map (fun r => vcKey r field))) ∧
    (∀ k : String, alookup (_vc records field) k =
      (if (records.map (fun r => vcKey r field)).count k = 0 then none
       else some ((records.map (fun r => vcKey r field)).count k))) ∧
    (∀ r : Record, (pyGet r field = none ∨ pyGet r field = some "") →
      vcKey r field = "Unknown") ∧
    (∀ (r : Record) (s : String), pyGet r field = some s → s ≠ "" →
      vcKey r field = s) := by
  have hmap : _vc records field =
      (records.map (fun r => vcKey r field)).foldl bump [] := by
    unfold _vc
    rw [List.foldl_map]
  refine ⟨?_, ?_, ?_, ?_⟩
  · rw [hmap, vc_fold_keys]
    rfl
  · intro k
    rw [hmap, vc_fold_count]
    simp [alookup]
  · intro r h
    unfold vcKey
    rcases h with h | h <;> simp [h]
  · intro r s hs hne
    unfold vcKey
    rw [hs]
    simp [hne]

theorem spec_c7_witness :
    vcKey [("engagement_status", none)] "engagement_status" = "Unknown" ∧
    vcKey [("engagement_status", some " ")] "engagement_status" = " " :=
  ⟨(spec_c7_value_counts [] "engagement_status").2.2.1
      [("engagement_status", none)] (by decide),
   (spec_c7_value_counts [] "engagement_status").2.2.2
      [("engagement_status", some " ")] " " (by decide) (by decide)⟩

theorem pyspace_alnum_false (c : Char) (h : isPySpace c = true) :
    isLowerAlnum c = false := by
  unfold isPySpace at h
  simp only [Bool.or_eq_true, beq_iff_eq] at h
  rcases h with ((((rfl | rfl) | rfl) | rfl) | rfl) | rfl <;> decide

theorem alnum_not_pyspace (c : Char) (h : isLowerAlnum c = true) :
    isPySpace c = false := by
  cases hps : isPySpace c with
  | false => rfl
  | true =>
    rw [pyspace_alnum_false c hps] at h
    exact Bool.noConfusion h

theorem alnum_ne_space (c : Char) (h : isLowerAlnum c = true) : c ≠ ' ' := by
  intro hcon
  subst hcon
  exact absurd h (by decide)

theorem lowerChar_fixed (c : Char) (h : isLowerAlnum c = true ∨ c = ' ') :
    lowerChar c = c := by
  unfold lowerChar
  rcases h with h | rfl
  · have hn : (97 ≤ c.toNat ∧ c.toNat ≤ 122) ∨ (48 ≤ c.toNat ∧ c.toNat ≤ 57) := by
      simpa [isLowerAlnum, Bool.or_eq_true, Bool.and_eq_true,
        decide_eq_true_eq] using h
    have hb : ¬ ((65 ≤ c.toNat && c.toNat ≤ 90) = true) := by
      simp only [Bool.and_eq_true, decide_eq_true_eq]
      omega
    rw [if_neg hb]
  · decide

theorem noTwoSp_cons_of_ne_space (c : Char) (xs : List Char) (hc : c ≠ ' ')
    (h : noTwoSp xs = true) : noTwoSp (c :: xs) = true := by
  cases xs with
  | nil => rfl
  | cons y ys =>
    have hcb : (c == ' ') = false := by simp [hc]
    simp [noTwoSp, hcb, h]

theorem noTwoSp_tail (c : Char) (t : List Char)
    (h : noTwoSp (c :: t) = true) : noTwoSp t = true := by
  cases t with
  | nil => rfl
  | cons d t' =>
    simp only [noTwoSp, Bool.and_eq_true] at h
    exact h.2

theorem charsOK_sub1 (l : List Char) : charsOK (sub1 l) := by
  induction l with
  | nil => intro x hx; simp [sub1] at hx
  | cons c t ih =>
    cases t with
    | nil =>
      intro x hx
      by_cases hc : isLowerAlnum c
      · simp only [sub1, hc, if_true, List.mem_singleton] at hx
        left; rw [hx]; exact hc
      · have hc' : isLowerAlnum c = false := by simpa using hc
        simp only [sub1, hc', Bool.false_eq_true, if_false,
          List.mem_singleton] at hx
        right; exact hx
    | cons d t' =>
      intro x hx
      by_cases hc : isLowerAlnum c
      · simp only [sub1, hc, if_true, List.mem_cons] at hx
        rcases hx with rfl | hx
        · left; exact hc
        · exact ih x hx
      · have hc' : isLowerAlnum c = false := by simpa using hc
        by_cases hd : isLowerAlnum d
        · simp only [sub1, hc', Bool.false_eq_true, if_false, hd, if_true,
            List.mem_cons] at hx
          rcases hx with rfl | hx
          · right; rfl
          · exact ih x hx
        · have hd' : isLowerAlnum d = false := by simpa using hd
          simp only [sub1, hc', hd', Bool.false_eq_true, if_false] at hx
          exact ih x hx

theorem sub1_head (d : Char) (t : List Char) (h : isLowerAlnum d = true) :
    ∃ r, sub1 (d :: t) = d :: r := by
  cases t with
  | nil => exact ⟨[], by simp [sub1, h]⟩
  | cons e t' => exact ⟨sub1 (e :: t'), by simp [sub1, h]⟩

theorem noTwoSp_sub1 (l : List Char) : noTwoSp (sub1 l) = true := by
  induction l with
  | nil => rfl
  | cons c t ih =>
    cases t with
    | nil =>
      by_cases hc : isLowerAlnum c
      · simp [sub1, hc, noTwoSp]
      · have hc' : isLowerAlnum c = false := by simpa using hc
        simp [sub1, hc', noTwoSp]
    | cons d t' =>
      by_cases hc : isLowerAlnum c
      · simp only [sub1, hc, if_true]
        exact noTwoSp_cons_of_ne_space c _ (alnum_ne_space c hc) ih
      · have hc' : isLowerAlnum c = false := by simpa using hc
        by_cases hd : isLowerAlnum d
        · simp only [sub1, hc', Bool.false_eq_true, if_false, hd, if_true]
          obtain ⟨r, hr⟩ := sub1_head d t' hd
          rw [hr] at ih ⊢
          have hdb : (d == ' ') = false := by
            simp [alnum_ne_space d hd]
          simp [noTwoSp, hdb, ih]
        · have hd' : isLowerAlnum d = false := by simpa using hd
          simp only [sub1, hc', hd', Bool.false_eq_true, if_false]
          exact ih

theorem sub2_chars (l : List Char) : ∀ x ∈ sub2 l, x = ' ' ∨ x ∈ l := by
  induction l with
  | nil => intro x hx; simp [sub2] at hx
  | cons c t ih =>
    cases t with
    | nil =>
      intro x hx
      by_cases hc : isPySpace c
      · simp only [sub2, hc, if_true, List.mem_singleton] at hx
        left; exact hx
      · have hc' : isPySpace c = false := by simpa using hc
        simp only [sub2, hc', Bool.false_eq_true, if_false,
          List.mem_singleton] at hx
        right; rw [hx]; exact List.mem_singleton_self c
    | cons d t' =>
      intro x hx
      by_cases hc : isPySpace c
      · have hc' : (!isPySpace c) = false := by simp [hc]
        by_cases hd : isPySpace d
        · simp only [sub2, hc', Bool.false_eq_true, if_false, hd, if_true] at hx
          rcases ih x hx with h | h
          · left; exact h
          · right; exact List.mem_cons_of_mem c h
        · have hd' : isPySpace d = false := by simpa using hd
          simp only [sub2, hc', hd', Bool.false_eq_true, if_false,
            List.mem_cons] at hx
          rcases hx with rfl | hx
          · left; rfl
          · rcases ih x hx with h | h
            · left; exact h
            · right; exact List.mem_cons_of_mem c h
      · have hc' : (!isPySpace c) = true := by simp [hc]
        simp only [sub2, hc', if_true, List.mem_cons] at hx
        rcases hx with rfl | hx
        · right; exact List.mem_cons_self _ _
        · rcases ih x hx with h | h
          · left; exact h
          · right; exact List.mem_cons_of_mem c h

theorem sub2_head (d : Char) (t : List Char) (h : isPySpace d = false) :
    ∃ r, sub2 (d :: t) = d :: r := by
  cases t with
  | nil => exact ⟨[], by simp [sub2, h]⟩
  | cons e t' => exact ⟨sub2 (e :: t'), by simp [sub2, h]⟩

theorem noTwoSp_sub2 (l : List Char) : noTwoSp (sub2 l) = true := by
  induction l with
  | nil => rfl
  | cons c t ih =>
    cases t with
    | nil =>
      by_cases hc : isPySpace c
      · simp [sub2, hc, noTwoSp]
      · have hc' : isPySpace c = false := by simpa using hc
        simp [sub2, hc', noTwoSp]
    | cons d t' =>
      by_cases hc : isPySpace c
      · have hc' : (!isPySpace c) = false := by simp [hc]
        by_cases hd : isPySpace d
        · simp only [sub2, hc', Bool.false_eq_true, if_false, hd, if_true]
          exact ih
        · have hd' : isPySpace d = false := by simpa using hd
          simp only [sub2, hc', hd', Bool.false_eq_true, if_false]
          obtain ⟨r, hr⟩ := sub2_head d t' hd'
          rw [hr] at ih ⊢
          have hdne : d ≠ ' ' := by
            intro hcon; subst hcon; simp [isPySpace] at hd'
          have hdb : (d == ' ') = false := by simp [hdne]
          simp [noTwoSp, hdb, ih]
      · have hc' : (!isPySpace c) = true := by simp [hc]
        simp only [sub2, hc', if_true]
        have hcne : c ≠ ' ' := by
          intro hcon; subst hcon; simp [isPySpace] at hc
        exact noTwoSp_cons_of_ne_space c _ hcne ih

theorem noTwoSp_dropWhile (p : Char → Bool) (l : List Char)
    (h : noTwoSp l = true) : noTwoSp (l.dropWhile p) = true := by
  induction l with
  | nil => rfl
  | cons a t ih =>
    by_cases hp : p a
    · rw [List.dropWhile_cons, if_pos hp]
      exact ih (noTwoSp_tail a t h)
    · rw [List.dropWhile_cons, if_neg hp]
      exact h

theorem noTwoSp_append_left (l₁ l₂ : List Char)
    (h : noTwoSp (l₁ ++ l₂) = true) : noTwoSp l₁ = true := by
  induction l₁ with
  | nil => rfl
  | cons a t ih =>
    cases t with
    | nil => rfl
    | cons b t' =>
      simp only [List.cons_append, noTwoSp, Bool.and_eq_true] at h ⊢
      exact ⟨h.1, by
        have := ih (by
          simpa only [List.cons_append, noTwoSp, Bool.and_eq_true] using h.2)
        exact this⟩

theorem noTwoSp_rstrip (l : List Char) (h : noTwoSp l = true) :
    noTwoSp (rstripL l) = true := by
  have hsplit := rstrip_append l
  rw [hsplit] at h
  exact noTwoSp_append_left _ _ h

theorem mem_of_mem_dropWhile (p : Char → Bool) (l : List Char) (x : Char)
    (hx : x ∈ l.dropWhile p) : x ∈ l := by
  rw [← List.takeWhile_append_dropWhile p l]
  exact List.mem_append.mpr (Or.inr hx)

theorem mem_of_mem_rstrip (l : List Char) (x : Char)
    (hx : x ∈ rstripL l) : x ∈ l := by
  have hsplit := rstrip_append l
  rw [hsplit]
  exact List.mem_append.mpr (Or.inl hx)

theorem mem_of_mem_pystrip (l : List Char) (x : Char)
    (hx : x ∈ pystripL l) : x ∈ l :=
  mem_of_mem_dropWhile isPySpace l x (mem_of_mem_rstrip (lstripL l) x hx)

theorem head?_pystrip (l : List Char) (c : Char)
    (h : (pystripL l).head? = some c) : isPySpace c = false := by
  unfold pystripL at h
  cases hr : rstripL (lstripL l) with
  | nil => rw [hr] at h; exact absurd h (by simp)
  | cons a r =>
    rw [hr] at h
    simp only [List.head?_cons, Option.some.injEq] at h
    have hsplit := rstrip_append (lstripL l)
    rw [hr] at hsplit
    have hhead : (lstripL l).head? = some a := by rw [hsplit]; rfl
    rw [← h]
    exact head?_dropWhile isPySpace l a hhead

theorem getLast?_rstrip (l : List Char) (c : Char)
    (h : (rstripL l).getLast? = some c) : isPySpace c = false := by
  unfold rstripL at h
  rw [List.getLast?_reverse] at h
  exact head?_dropWhile isPySpace l.reverse c h

theorem getLast?_pystrip (l : List Char) (c : Char)
    (h : (pystripL l).getLast? = some c) : isPySpace c = false :=
  getLast?_rstrip (lstripL l) c h

theorem dropWhile_of_head (p : Char → Bool) (l : List Char)
    (h : ∀ c, l.head? = some c → p c = false) : l.dropWhile p = l := by
  cases l with
  | nil => rfl
  | cons a t =>
    rw [List.dropWhile_cons, if_neg]
    rw [h a rfl]
    simp

theorem rstrip_of_getLast (l : List Char)
    (h : ∀ c, l.getLast? = some c → isPySpace c = false) : rstripL l = l := by
  unfold rstripL
  rw [dropWhile_of_head isPySpace l.reverse
    (fun c hc => h c (by rwa [List.head?_reverse] at hc))]
  exact List.reverse_reverse l

theorem map_id_of_fixed (f : Char → Char) :
    ∀ l : List Char, (∀ x ∈ l, f x = x) → l.map f = l := by
  intro l
  induction l with
  | nil => intro _; rfl
  | cons a t ih =>
    intro h
    rw [List.map_cons, h a (List.mem_cons_self a t),
      ih (fun x hx => h x (List.mem_cons_of_mem a hx))]

theorem head?_mem (l : List Char) (c : Char) (h : l.head? = some c) : c ∈ l := by
  cases l with
  | nil => exact absurd h (by simp)
  | cons a t =>
    simp only [List.head?_cons, Option.some.injEq] at h
    rw [← h]
    exact List.mem_cons_self a t

theorem getLast?_mem (l : List Char) (c : Char) (h : l.getLast? = some c) :
    c ∈ l := by
  have h' : l.reverse.head? = some c := by rwa [List.head?_reverse]
  have := head?_mem l.reverse c h'
  exact List.mem_reverse.mp this

theorem charsOK_tail (c : Char) (t : List Char) (h : charsOK (c :: t)) :
    charsOK t :=
  fun x hx => h x (List.mem_cons_of_mem c hx)

theorem sub1_id (l : List Char) (hc : charsOK l) (hn : noTwoSp l = true) :
    sub1 l = l := by
  induction l with
  | nil => rfl
  | cons c t ih =>
    cases t with
    | nil =>
      rcases hc c (List.mem_cons_self c []) with h | rfl
      · simp [sub1, h]
      · simp [sub1]
    | cons d t' =>
      rcases hc c (List.mem_cons_self c (d :: t')) with h | rfl
      · simp only [sub1, h, if_true]
        rw [ih (charsOK_tail c _ hc) (noTwoSp_tail c _ hn)]
      · have hd : isLowerAlnum d = true := by
          have hdne : d ≠ ' ' := by
            intro hcon
            subst hcon
            simp [noTwoSp] at hn
          rcases hc d (List.mem_cons_of_mem _ (List.mem_cons_self d t')) with h | h
          · exact h
          · exact absurd h hdne
        have hsp : isLowerAlnum ' ' = false := by decide
        simp only [sub1, hsp, Bool.false_eq_true, if_false, hd, if_true]
        rw [ih (charsOK_tail _ _ hc) (noTwoSp_tail _ _ hn)]

theorem sub2_id (l : List Char) (hc : charsOK l) (hn : noTwoSp l = true) :
    sub2 l = l := by
  induction l with
  | nil => rfl
  | cons c t ih =>
    cases t with
    | nil =>
      rcases hc c (List.mem_cons_self c []) with h | rfl
      · simp [sub2, alnum_not_pyspace c h]
      · simp [sub2, isPySpace]
    | cons d t' =>
      rcases hc c (List.mem_cons_self c (d :: t')) with h | rfl
      · have hps : isPySpace c = false := alnum_not_pyspace c h
        simp only [sub2, hps, Bool.not_false, if_true]
        rw [ih (charsOK_tail c _ hc) (noTwoSp_tail c _ hn)]
      · have hd : isLowerAlnum d = true := by
          have hdne : d ≠ ' ' := by
            intro hcon
            subst hcon
            simp [noTwoSp] at hn
          rcases hc d (List.mem_cons_of_mem _ (List.mem_cons_self d t')) with h | h
          · exact h
          · exact absurd h hdne
        have hdps : isPySpace d = false := alnum_not_pyspace d hd
        have hsp : (!isPySpace ' ') = false := by decide
        simp only [sub2, hsp, Bool.false_eq_true, if_false, hdps, if_true]
        rw [ih (charsOK_tail _ _ hc) (noTwoSp_tail _ _ hn)]

theorem charsOK_canonicalizeL (l : List Char) : charsOK (canonicalizeL l) := by
  unfold canonicalizeL
  intro x hx
  have hx2 : x ∈ sub2 (sub1 ((pystripL l).map lowerChar)) :=
    mem_of_mem_pystrip _ x hx
  rcases sub2_chars _ x hx2 with rfl | hx3
  · right; rfl
  · exact charsOK_sub1 _ x hx3

theorem noTwoSp_canonicalizeL (l : List Char) :
    noTwoSp (canonicalizeL l) = true := by
  unfold canonicalizeL pystripL
  exact noTwoSp_rstrip _ (noTwoSp_dropWhile _ _ (noTwoSp_sub2 _))

theorem lstrip_of_head (l : List Char)
    (h : ∀ c, l.head? = some c → isPySpace c = false) : lstripL l = l :=
  dropWhile_of_head isPySpace l h

theorem pystripL_of_good (m : List Char)
    (hh : ∀ c, m.head? = some c → isPySpace c = false)
    (hl : ∀ c, m.getLast? = some c → isPySpace c = false) :
    pystripL m = m := by
  unfold pystripL
  rw [lstrip_of_head m hh]
  exact rstrip_of_getLast m hl

/-- A string already in canonical shape is a fixed point of `_canonicalize`. -/
theorem canonicalizeL_fixed (m : List Char) (hchars : charsOK m)
    (hnts : noTwoSp m = true)
    (hh : ∀ c, m.head? = some c → isPySpace c = false)
    (hl : ∀ c, m.getLast? = some c → isPySpace c = false) :
    canonicalizeL m = m := by
  unfold canonicalizeL
  rw [pystripL_of_good m hh hl,
    map_id_of_fixed lowerChar m (fun x hx => lowerChar_fixed x (hchars x hx)),
    sub1_id m hchars hnts, sub2_id m hchars hnts]
  exact pystripL_of_good m hh hl

theorem canonicalizeL_idem (l : List Char) :
    canonicalizeL (canonicalizeL l) = canonicalizeL l := by
  apply canonicalizeL_fixed
  · exact charsOK_canonicalizeL l
  · exact noTwoSp_canonicalizeL l
  · intro c hc
    exact head?_pystrip _ c hc
  · intro c hc
    exact getLast?_pystrip _ c hc

theorem canonicalize_idem (s : String) :
    _canonicalize (_canonicalize s) = _canonicalize s :=
  congrArg String.mk (canonicalizeL_idem s.data)

/-- C8: the header canonicalizer `_map_column` is idempotent, both on headers
resolved through the alias registry (each canonical name resolves to itself)
and on ad-hoc pass-through headers (via idempotence of `_canonicalize`). -/
theorem spec_c8_canonicalize_idempotent (s : String) :
    _map_column (_map_column s) = _map_column s := by
  cases hf : NORMALIZED_COLUMN_ALIASES.find?
      (fun p => _canonicalize s == p.1 || p.2.contains (_canonicalize s)) with
  | none =>
    have hres : _map_column s = _canonicalize s := by
      simp only [_map_column]
      rw [hf]
    rw [hres]
    simp only [_map_column]
    rw [canonicalize_idem, hf]
  | some p =>
    have hres : _map_column s = p.1 := by
      simp only [_map_column]
      rw [hf]
    rw [hres]
    have hmem : p ∈ NORMALIZED_COLUMN_ALIASES := List.mem_of_find?_eq_some hf
    simp only [NORMALIZED_COLUMN_ALIASES, List.mem_cons, List.not_mem_nil,
      or_false] at hmem
    rcases hmem with rfl | rfl | rfl | rfl | rfl | rfl | rfl <;> decide

theorem spec_c9_witness :
    vNonblank (pyGet [("organisation_id", some "1"), ("name", some "Bob")]
      "organisation_id") = true :=
  spec_c9_key_fields_populated
    [[[("organisation_id", some "1"), ("name", some "Bob")]]]
    ["organisation_id"]
    [("organisation_id", some "1"), ("name", some "Bob")]
    (by decide) "organisation_id" (by decide)

theorem spec_c1_witness :
    alookup (mergeFields [("product_status", some "Active")]
      [("product_status", some "")]) "product_status" = some (some "Active") := by
  rw [spec_c1_merge_conflict_policy.1]
  decide

theorem spec_c2_witness :
    [("a", some "x")] ∈ read_table_xlsx_rows [some "a"] [[some "x"]] :=
  (spec_c2_blank_row_filter.2 [some "a"] [[some "x"]] [("a", some "x")]).mpr
    (by decide)

theorem spec_c3_witness :
    has_next_activity_due [("next_activity_due_date", some "2024-01-01")] = true :=
  (spec_c3_due_flag.1 [("next_activity_due_date", some "2024-01-01")]).mpr
    ⟨"2024-01-01", by decide, by decide⟩

theorem spec_c4_witness :
    infer_key_columns [[[("organisation_id", some "1")]]] [["organisation_id"]] =
      List.find? (candidateOk [[[("organisation_id", some "1")]]])
        [["organisation_id"]] :=
  (spec_c4_key_inference [[[("organisation_id", some "1")]]]
    [["organisation_id"]]).1

theorem spec_c8_witness :
    _map_column (_map_column "Org ID") = _map_column "Org ID" :=
  spec_c8_canonicalize_idempotent "Org ID"

theorem spec_c10_witness :
    alookup (((normalize_records
        [[("Org ID", some "1"), ("org_id", some "2")]]).1).getD 0 [])
      "organisation_id" =
      ((([[("Org ID", some "1"), ("org_id", some "2")]].getD 0 []).reverse.find?
        (fun p => _map_column p.1 == "organisation_id")).map Prod.snd) :=
  spec_c10_last_header_wins [[("Org ID", some "1"), ("org_id", some "2")]] 0
    "organisation_id"
